import Mathlib

/-!
Verification of the Bybit rolling-volatility pipeline (`src/main.py`).

The Python program fetches kline (candle) records per symbol, builds a
pandas DataFrame, reverses the provider's row order (`df.iloc[::-1]`),
parses the close column (`pd.to_numeric(..., errors='coerce')`, NaN on
failure), derives returns (`pct_change`), computes a rolling sample
standard deviation (`rolling(window=w).std()`, ddof = 1, min_periods = w),
and aggregates the last value per symbol across a batch, catching
per-symbol exceptions.  Missing values (pandas NaN) are embedded as
`Option.none`; finite numeric values as rationals.  The standard
deviation itself is the real square root of the rational rolling
variance.
-/

namespace BybitVol

/-- A raw kline record as delivered by the provider.  The program only ever
uses the timestamp (index) and the close price; `close` is `some q` when
`pd.to_numeric(..., errors='coerce')` parses the close field to the finite
value `q`, and `none` when parsing fails (pandas NaN). -/
structure Candle where
  ts : Nat
  close : Option ℚ
deriving DecidableEq

/-- Lines 35–39 of `main.py`: build the frame, reverse the provider order
(`df.iloc[::-1]`), set the timestamp index and parse the close column.
Reversal and element-wise parsing commute, so the series is the reversed
projection of the raw candles.  No sorting and no deduplication by
timestamp happens anywhere in the source. -/
def normalize (raw : List Candle) : List (Nat × Option ℚ) :=
  raw.reverse.map fun c => (c.ts, c.close)

/-- The close column of a price series. -/
def closes (ps : List (Nat × Option ℚ)) : List (Option ℚ) :=
  ps.map Prod.snd

/-- Forward fill (pandas `ffill` / `fill_method='pad'`), carrying the last
seen defined value. -/
def ffillAux : Option ℚ → List (Option ℚ) → List (Option ℚ)
  | _, [] => []
  | last, none :: xs => last :: ffillAux last xs
  | _, some v :: xs => some v :: ffillAux (some v) xs

/-- Forward fill starting with no prior value. -/
def ffill (xs : List (Option ℚ)) : List (Option ℚ) :=
  ffillAux none xs

/-- Line 40 of `main.py`: `df['Close'].pct_change()`.  pandas (at the
repository's vintage) pads missing values first (`fill_method='pad'`),
then computes `filled[i] / filled[i-1] - 1`; the first entry is always
NaN, and an entry is NaN when no defined value exists at or before one of
the two positions.  A zero prior close produces a non-finite return — NaN
from `0.0/0.0`, or ±inf from `c/0.0`, which `rolling`'s internal
`_prep_values` nulls to NaN — so such a return is missing for every
consumer in the program and is embedded as missing here (`none` stands
for any non-finite float). -/
def pctChange (xs : List (Option ℚ)) : List (Option ℚ) :=
  match ffill xs with
  | [] => []
  | a :: t =>
    none :: ((a :: t).zip t).map fun pc =>
      match pc.1, pc.2 with
      | some p, some c => if p = 0 then none else some (c / p - 1)
      | _, _ => none

/-- Arithmetic mean of a list of rationals. -/
def mean (l : List ℚ) : ℚ :=
  l.sum / l.length

/-- Sample variance with Bessel's correction (denominator `n - 1`), the
quantity pandas `rolling(...).std(ddof=1)` squares to on a full window. -/
def sampleVar (l : List ℚ) : ℚ :=
  (l.map fun x => (x - mean l) ^ 2).sum / ((l.length : ℚ) - 1)

/-- The window of the `w` most recent entries of `xs` ending at index `i`
(fewer when `i + 1 < w`), exactly the observation window of
`rolling(window=w)` at row `i`. -/
def windowAt (xs : List (Option ℚ)) (w i : Nat) : List (Option ℚ) :=
  (xs.take (i + 1)).drop (i + 1 - w)

/-- Line 41 of `main.py`, squared: the rolling sample variance of
`rolling(window=w).std()`.  pandas yields NaN unless the window holds `w`
observations (`min_periods` defaults to the window size) all of which are
defined, and also when `ddof = 1` leaves no degree of freedom (`w < 2`,
a 0/0). -/
def rollingVar (xs : List (Option ℚ)) (w : Nat) : List (Option ℚ) :=
  (List.range xs.length).map fun i =>
    if 2 ≤ w ∧ (windowAt xs w i).length = w ∧ (windowAt xs w i).all Option.isSome
    then some (sampleVar (windowAt xs w i).reduceOption)
    else none

/-- Sample standard deviation (the spec's formula): square root of the
Bessel-corrected sample variance. -/
noncomputable def sampleStd (l : List ℚ) : ℝ :=
  Real.sqrt (sampleVar l)

/-- The `Rolling_Std_4h` column: element-wise square root of the rolling
sample variance. -/
noncomputable def rollingStd (xs : List (Option ℚ)) (w : Nat) : List (Option ℝ) :=
  (rollingVar xs w).map (Option.map fun q : ℚ => Real.sqrt (q : ℝ))

/-- The rolling standard deviation at index `i` of the series derived from
price series `ps` (`none` also when `i` is out of range). -/
noncomputable def volStdAt (ps : List (Nat × Option ℚ)) (w i : Nat) : Option ℝ :=
  ((rollingStd (pctChange (closes ps)) w)[i]?).join

/-- The spec's ReturnSeries: the source's `Returns` column minus its head
slot, which is structurally missing (pandas keeps an aligned NaN at
index 0 because no prior row exists). -/
def ReturnSeries (ps : List (Nat × Option ℚ)) : List (Option ℚ) :=
  (pctChange (closes ps)).tail

/-- The spec's VolatilitySeries: the source's `Rolling_Std_4h` column (here
its square, which is missing at exactly the same positions) minus its
structurally missing head slot. -/
def VolatilitySeries (ps : List (Nat × Option ℚ)) (w : Nat) : List (Option ℚ) :=
  (rollingVar (pctChange (closes ps)) w).tail

/-- The error raised by `fetch_and_analyze_crypto_price` (a `ValueError`
whose message is formatted from the symbol and the underlying cause). -/
structure FetchErr where
  symbol : String
  cause : String
deriving DecidableEq

/-- The analyzed frame: the parsed close column, the returns column and the
rolling standard deviation column (squared, as rationals). -/
structure Df where
  closeCol : List (Option ℚ)
  returnsCol : List (Option ℚ)
  volCol : List (Option ℚ)
deriving DecidableEq

/-- The frame built by lines 35–41 of `main.py` from the provider's kline
list. -/
def mkDf (raw : List Candle) (w : Nat) : Df :=
  let cl := closes (normalize raw)
  let ret := pctChange cl
  ⟨cl, ret, rollingVar ret w⟩

/-- Lines 21–48 of `main.py`.  `resp` is the outcome of the provider call:
`.error cause` when the request itself raises, `.ok none` when the
response lacks `result`/`list` (the line 33 check fails), `.ok (some ks)`
when `response['result']['list'] = ks`.  Note that an *empty* list passes
the line 33 check and flows through the frame pipeline unharmed. -/
def fetch_and_analyze_crypto_price (symbol : String)
    (resp : Except String (Option (List Candle))) (w : Nat) : Except FetchErr Df :=
  match resp with
  | .error cause => .error ⟨symbol, cause⟩
  | .ok none => .error ⟨symbol, "No data returned from API."⟩
  | .ok (some ks) => .ok (mkDf ks w)

/-- Keys of an association list (a Python dict in insertion order). -/
def keys {α : Type} (m : List (String × α)) : List String :=
  m.map Prod.fst

/-- Python dict assignment `m[k] = v`: overwrite in place when the key
exists, append otherwise. -/
def dictInsert {α : Type} (m : List (String × α)) (k : String) (v : α) :
    List (String × α) :=
  if k ∈ keys m then m.map fun p => if p.1 = k then (k, v) else p
  else m ++ [(k, v)]

/-- Python dict lookup `m.get(k)` (first matching key). -/
def dlookup {α : Type} (m : List (String × α)) (k : String) : Option α :=
  match m with
  | [] => none
  | (k', v) :: rest => if k' = k then some v else dlookup rest k

/-- The aggregator's state: the `result` dict (symbol to last rolling std),
the `dfs` dict (retained frames) and the errors reported via `st.error`
(symbol paired with the exception's message). -/
structure Agg where
  result : List (String × ℚ)
  dfs : List (String × Df)
  errors : List (String × String)
deriving DecidableEq

/-- The body of the `for symbol in symbols` loop in `fetch_data_and_plot`
(lines 73–81): call the fetch, take `df['Rolling_Std_4h'].iloc[-1]`
(an IndexError on an empty frame, caught like any other exception), skip
silently when it is NaN, otherwise record the value and the frame. -/
def processOne (fetch : String → Except FetchErr Df) (agg : Agg) (symbol : String) :
    Agg :=
  match fetch symbol with
  | .error e => { agg with errors := agg.errors ++ [(symbol, e.cause)] }
  | .ok df =>
    match df.volCol.getLast? with
    | none =>
      { agg with errors := agg.errors ++ [(symbol, "single positional indexer is out-of-bounds")] }
    | some none => agg
    | some (some v) =>
      { agg with
          result := dictInsert agg.result symbol v
          dfs := dictInsert agg.dfs symbol df }

/-- Lines 70–81 of `main.py`: the per-symbol aggregation loop of
`fetch_data_and_plot`, starting from empty dicts.  Every per-symbol
exception is caught inside the loop, so the function itself is total. -/
def fetch_data_and_plot (symbols : List String)
    (fetch : String → Except FetchErr Df) : Agg :=
  symbols.foldl (processOne fetch) ⟨[], [], []⟩

/-- A symbol's per-symbol pass succeeds with a usable value: the fetch
returns a frame whose last rolling-std entry exists and is defined. -/
def succeeds (fetch : String → Except FetchErr Df) (s : String) : Bool :=
  match fetch s with
  | .error _ => false
  | .ok df =>
    match df.volCol.getLast? with
    | some (some _) => true
    | _ => false

/-- The per-symbol pass ends in the loop's `except` branch: the fetch
raises, or it returns an empty frame and `iloc[-1]` raises IndexError. -/
def recordsError (fetch : String → Except FetchErr Df) (s : String) : Bool :=
  match fetch s with
  | .error _ => true
  | .ok df => (df.volCol.getLast?).isNone

/-- Ascending insertion into a sorted list, placing the new element before
every element of greater-or-equal value; with `List.foldr` below this is a
stable ascending sort, which is what numpy's introsort degenerates to on
the small arrays at hand (insertion sort below 16 elements). -/
def insertAsc (x : String × ℚ) : List (String × ℚ) → List (String × ℚ)
  | [] => [x]
  | y :: ys => if y.2 < x.2 then y :: insertAsc x ys else x :: y :: ys

/-- Stable ascending sort by value. -/
def sortAsc (l : List (String × ℚ)) : List (String × ℚ) :=
  l.foldr insertAsc []

/-- Line 91 of `main.py`: `sort_values(by=..., ascending=False)`.  pandas
`nargsort` handles a descending sort by first reversing the values and
their indices, running an ascending argsort, and reversing the resulting
indexer; the two reversals cancel on equal values, so ties keep their
original input order.  The underlying numpy sort is a stable insertion
sort on the small arrays at hand (introsort only starts partitioning
above its 16-element threshold), matching the stable kinds for which
pandas documents exactly this tie behaviour. -/
def rankRows (l : List (String × ℚ)) : List (String × ℚ) :=
  (sortAsc l.reverse).reverse

/-- IEEE division as the program observes it on finite operands: a zero
denominator produces a non-finite value (NaN for 0/0, ±inf otherwise),
i.e. a missing entry; no exception is raised. -/
def floatDiv (a b : ℚ) : Option ℚ :=
  if b = 0 then none else some (a / b)

/-- pandas `Series.max()` on a non-empty column. -/
def colMax : List ℚ → Option ℚ
  | [] => none
  | x :: xs => some (xs.foldl max x)

/-- pandas `Series.min()` on a non-empty column. -/
def colMin : List ℚ → Option ℚ
  | [] => none
  | x :: xs => some (xs.foldl min x)

/-- Lines 89–94 of `main.py`: sort the entries by value descending, then
attach to each row the color `(v - min) / (max - min)` computed over the
batch. -/
def plot_data (data : List (String × ℚ)) : List (String × ℚ × Option ℚ) :=
  let rows := rankRows data
  match colMax (rows.map Prod.snd), colMin (rows.map Prod.snd) with
  | some mx, some mn => rows.map fun r => (r.1, r.2, floatDiv (r.2 - mn) (mx - mn))
  | _, _ => []

/-- Strict ascent of the timestamp index, as a decidable check. -/
def strictAscTS : List (Nat × Option ℚ) → Bool
  | [] => true
  | [_] => true
  | a :: b :: rest => decide (a.1 < b.1) && strictAscTS (b :: rest)

/-- Strict descent of raw-candle timestamps (the provider's newest-first
convention), as a decidable check. -/
def strictDescCandles : List Candle → Bool
  | [] => true
  | [_] => true
  | a :: b :: rest => decide (b.ts < a.ts) && strictDescCandles (b :: rest)

/-- The ordering step `df.iloc[::-1]` applied to an already-parsed series:
the reversal of the normalization, on its own output type. -/
def reorderStep (s : List (Nat × Option ℚ)) : List (Nat × Option ℚ) :=
  s.reverse

/-! ### Basic length and indexing lemmas for the pipeline -/

lemma ffillAux_length (last : Option ℚ) (xs : List (Option ℚ)) :
    (ffillAux last xs).length = xs.length := by
  induction xs generalizing last with
  | nil => rfl
  | cons x xs ih => cases x <;> simp [ffillAux, ih]

lemma ffill_length (xs : List (Option ℚ)) : (ffill xs).length = xs.length :=
  ffillAux_length none xs

lemma pctChange_length (xs : List (Option ℚ)) :
    (pctChange xs).length = xs.length := by
  have h : (ffill xs).length = xs.length := ffill_length xs
  unfold pctChange
  cases hf : ffill xs with
  | nil => rw [hf] at h; simpa using h
  | cons a t =>
    rw [hf] at h
    simp only [List.length_cons, List.length_map, List.length_zip,
      List.length_cons] at h ⊢
    omega

lemma closes_length (ps : List (Nat × Option ℚ)) : (closes ps).length = ps.length := by
  simp [closes]

lemma pctChange_head (xs : List (Option ℚ)) (hne : xs ≠ []) :
    (pctChange xs).head? = some none := by
  unfold pctChange
  cases hf : ffill xs with
  | nil =>
    have h := ffill_length xs
    rw [hf] at h
    exact absurd (List.length_eq_zero.mp h.symm) hne
  | cons a t => rfl

lemma rollingVar_length (xs : List (Option ℚ)) (w : Nat) :
    (rollingVar xs w).length = xs.length := by
  simp [rollingVar]

lemma rollingVar_getElem (xs : List (Option ℚ)) (w i : Nat) (hi : i < xs.length) :
    (rollingVar xs w)[i]? =
      some (if 2 ≤ w ∧ (windowAt xs w i).length = w ∧ (windowAt xs w i).all Option.isSome
            then some (sampleVar (windowAt xs w i).reduceOption) else none) := by
  simp [rollingVar, List.getElem?_map, List.getElem?_range, hi]

lemma windowAt_length (xs : List (Option ℚ)) (w i : Nat) (hi : i < xs.length) :
    (windowAt xs w i).length = i + 1 - (i + 1 - w) := by
  simp only [windowAt, List.length_drop, List.length_take]
  omega

lemma rollingVar_head (xs : List (Option ℚ)) (w : Nat) (hw : 2 ≤ w)
    (hne : xs ≠ []) : (rollingVar xs w).head? = some none := by
  have hlen : 0 < xs.length := List.length_pos.mpr hne
  have h0 := rollingVar_getElem xs w 0 hlen
  have hwl : (windowAt xs w 0).length = 1 := by
    rw [windowAt_length xs w 0 hlen]; omega
  rw [List.head?_eq_getElem?, h0]
  have : ¬ (2 ≤ w ∧ (windowAt xs w 0).length = w ∧ (windowAt xs w 0).all Option.isSome) := by
    rintro ⟨h2, hlw, -⟩; omega
  rw [if_neg this]

lemma volStdAt_eq (ps : List (Nat × Option ℚ)) (w i : Nat) (hw : 2 ≤ w)
    (hi : i < ps.length) :
    volStdAt ps w i =
      (if w - 1 ≤ i ∧ ∀ r ∈ windowAt (pctChange (closes ps)) w i, r.isSome = true
       then some (sampleStd ((windowAt (pctChange (closes ps)) w i).reduceOption))
       else none) := by
  have hlen : i < (pctChange (closes ps)).length := by
    rw [pctChange_length, closes_length]; exact hi
  have hub := rollingVar_getElem (pctChange (closes ps)) w i hlen
  have hwin : ((windowAt (pctChange (closes ps)) w i).length = w ↔ w - 1 ≤ i) := by
    rw [windowAt_length _ _ _ hlen]; omega
  have hcond : (2 ≤ w ∧ (windowAt (pctChange (closes ps)) w i).length = w ∧
        (windowAt (pctChange (closes ps)) w i).all Option.isSome = true)
      ↔ (w - 1 ≤ i ∧ ∀ r ∈ windowAt (pctChange (closes ps)) w i, r.isSome = true) := by
    rw [List.all_eq_true, hwin]
    exact ⟨fun ⟨_, h1, h2⟩ => ⟨h1, h2⟩, fun ⟨h1, h2⟩ => ⟨hw, h1, h2⟩⟩
  unfold volStdAt rollingStd
  rw [List.getElem?_map, hub]
  rw [if_congr hcond rfl rfl]
  by_cases hC : w - 1 ≤ i ∧ ∀ r ∈ windowAt (pctChange (closes ps)) w i, r.isSome = true
  · rw [if_pos hC, if_pos hC]; rfl
  · rw [if_neg hC, if_neg hC]; rfl

/-- C1: for every normalized price series and window size at least 2, the
rolling volatility at index `i` equals the sample standard deviation
(denominator `n - 1`) of the `window_size` most recent return values
ending at `i`, and it is defined exactly when `i ≥ window_size - 1` and
every return in that window is defined. -/
theorem C1_rolling_volatility (ps : List (Nat × Option ℚ)) (w i : Nat)
    (hw : 2 ≤ w) (hi : i < ps.length) :
    (volStdAt ps w i ≠ none ↔
      (w - 1 ≤ i ∧ ∀ r ∈ windowAt (pctChange (closes ps)) w i, r.isSome = true))
    ∧ volStdAt ps w i =
        (if w - 1 ≤ i ∧ ∀ r ∈ windowAt (pctChange (closes ps)) w i, r.isSome = true
         then some (sampleStd ((windowAt (pctChange (closes ps)) w i).reduceOption))
         else none) := by
  have h := volStdAt_eq ps w i hw hi
  refine ⟨?_, h⟩
  rw [h]
  by_cases hC : w - 1 ≤ i ∧ ∀ r ∈ windowAt (pctChange (closes ps)) w i, r.isSome = true
  · rw [if_pos hC]
    exact ⟨fun _ => hC, fun _ => Option.some_ne_none _⟩
  · rw [if_neg hC]
    exact ⟨fun hfalse => absurd rfl hfalse, fun hc => absurd hc hC⟩

/-- Witness for C1 at a concrete series and window. -/
theorem C1_rolling_volatility_witness :
    volStdAt [(0, some 1), (1, some 2), (2, some 4)] 2 2 =
      (if 2 - 1 ≤ 2 ∧ ∀ r ∈ windowAt (pctChange (closes [(0, some 1), (1, some 2), (2, some 4)])) 2 2,
            r.isSome = true
       then some (sampleStd ((windowAt (pctChange (closes [(0, some 1), (1, some 2), (2, some 4)])) 2 2).reduceOption))
       else none) :=
  (C1_rolling_volatility [(0, some 1), (1, some 2), (2, some 4)] 2 2
    (by decide) (by decide)).2

/-- C8: for a price series of length `n` produced by `normalize`, the
ReturnSeries and the VolatilitySeries both have length `n - 1`; the
source's pandas columns themselves have length `n`, with a structurally
missing entry in the head slot that the spec's series drop. -/
theorem C8_series_lengths (raw : List Candle) (w : Nat) (hw : 2 ≤ w) :
    (pctChange (closes (normalize raw))).length = (normalize raw).length
    ∧ (rollingVar (pctChange (closes (normalize raw))) w).length = (normalize raw).length
    ∧ (ReturnSeries (normalize raw)).length = (normalize raw).length - 1
    ∧ (VolatilitySeries (normalize raw) w).length = (normalize raw).length - 1
    ∧ ((pctChange (closes (normalize raw))).head? = some none ∨ normalize raw = [])
    ∧ ((rollingVar (pctChange (closes (normalize raw))) w).head? = some none ∨ normalize raw = []) := by
  have h1 : (pctChange (closes (normalize raw))).length = (normalize raw).length := by
    rw [pctChange_length, closes_length]
  have h2 : (rollingVar (pctChange (closes (normalize raw))) w).length = (normalize raw).length := by
    rw [rollingVar_length, pctChange_length, closes_length]
  refine ⟨h1, h2, ?_, ?_, ?_, ?_⟩
  · rw [ReturnSeries, List.length_tail, h1]
  · rw [VolatilitySeries, List.length_tail, h2]
  · by_cases hne : normalize raw = []
    · exact Or.inr hne
    · refine Or.inl (pctChange_head _ ?_)
      simp only [closes, ne_eq, List.map_eq_nil_iff]
      exact hne
  · by_cases hne : normalize raw = []
    · exact Or.inr hne
    · refine Or.inl (rollingVar_head _ _ hw ?_)
      intro hp
      have := pctChange_length (closes (normalize raw))
      rw [hp] at this
      simp only [List.length_nil, closes_length] at this
      exact hne (List.length_eq_zero.mp this.symm)

/-- Witness for C8 at a concrete candle list and window. -/
theorem C8_series_lengths_witness :
    (ReturnSeries (normalize [⟨1, some 1⟩, ⟨2, some 2⟩])).length =
      (normalize [⟨1, some 1⟩, ⟨2, some 2⟩]).length - 1 :=
  (C8_series_lengths [⟨1, some 1⟩, ⟨2, some 2⟩] 2 (by decide)).2.2.1

/-! ### Ordering of the normalized series (C3, C9) -/

lemma strictAscTS_iff : ∀ s : List (Nat × Option ℚ),
    strictAscTS s = true ↔ s.Chain' fun a b => a.1 < b.1
  | [] => by simp [strictAscTS]
  | [a] => by simp [strictAscTS]
  | a :: b :: rest => by
    rw [strictAscTS, Bool.and_eq_true, decide_eq_true_iff, strictAscTS_iff (b :: rest),
      List.chain'_cons]

lemma strictDescCandles_iff : ∀ l : List Candle,
    strictDescCandles l = true ↔ l.Chain' fun a b => b.ts < a.ts
  | [] => by simp [strictDescCandles]
  | [a] => by simp [strictDescCandles]
  | a :: b :: rest => by
    rw [strictDescCandles, Bool.and_eq_true, decide_eq_true_iff,
      strictDescCandles_iff (b :: rest), List.chain'_cons]

/-- Counterexample to C3: `normalize` does not sort — on an ascending
input the output is descending — and it does not deduplicate — two
candles sharing a timestamp both survive. -/
theorem C3_counterexample :
    strictAscTS (normalize [⟨1, some 1⟩, ⟨2, some 2⟩]) = false
    ∧ (normalize [⟨5, some 1⟩, ⟨5, some 2⟩]).length = 2 := by
  decide

/-- C3 amended: `normalize` merely reverses the provider's order (no sort,
no deduplication): the output is the reversed projection of the input,
its length is the input's length, and it is strictly ascending by
timestamp exactly when the input was strictly descending. -/
theorem C3_amended_reversal (raw : List Candle) :
    normalize raw = (raw.map fun c => (c.ts, c.close)).reverse
    ∧ (normalize raw).length = raw.length
    ∧ strictAscTS (normalize raw) = strictDescCandles raw := by
  have h1 : normalize raw = (raw.map fun c => (c.ts, c.close)).reverse := by
    simp [normalize]
  refine ⟨h1, by simp [normalize], ?_⟩
  have h2 : strictAscTS (normalize raw) = true ↔ strictDescCandles raw = true := by
    rw [strictAscTS_iff, strictDescCandles_iff, h1, List.chain'_reverse,
      List.chain'_map]
    exact Iff.rfl
  cases hA : strictAscTS (normalize raw) <;> cases hB : strictDescCandles raw <;>
    simp_all

/-- Counterexample to C9: an already-normalized (strictly ascending,
deduplicated) input is not a fixed point of `normalize` — the output is
its reversal. -/
theorem C9_counterexample :
    normalize [⟨1, some 1⟩, ⟨2, some 2⟩] ≠ [(1, some 1), (2, some 2)] := by
  decide

/-- C9 amended: `normalize` is not idempotent; its ordering step is an
involution.  It sends every input to the reversed projection, and applying
the ordering step (`df.iloc[::-1]`) twice restores the series. -/
theorem C9_amended_involution :
    (∀ raw : List Candle, normalize raw = reorderStep (raw.map fun c => (c.ts, c.close)))
    ∧ ∀ s : List (Nat × Option ℚ), reorderStep (reorderStep s) = s := by
  constructor
  · intro raw; simp [normalize, reorderStep]
  · intro s; simp [reorderStep]

/-! ### Fetch failure conditions (C7) -/

/-- Counterexample to C7: a response whose `result.list` is present but
*empty* passes the line 33 check, so the fetch returns an empty frame
instead of raising a `FetchError`. -/
theorem C7_counterexample :
    fetch_and_analyze_crypto_price "BTCUSDT" (Except.ok (some [])) 8 =
      Except.ok (mkDf [] 8)
    ∧ mkDf [] 8 = ⟨[], [], []⟩ := by
  constructor
  · rfl
  · rfl

/-- C7 amended: the fetch raises a `FetchError` carrying the symbol and
the cause exactly when the provider call itself fails or the response
lacks `result.list`; an empty `result.list` is not detected and flows
through as an empty frame. -/
theorem C7_amended_error_conditions (symbol : String)
    (resp : Except String (Option (List Candle))) (w : Nat) :
    ((∃ e, fetch_and_analyze_crypto_price symbol resp w = .error e) ↔
      ((∃ c, resp = .error c) ∨ resp = .ok none))
    ∧ (∀ c, resp = .error c →
        fetch_and_analyze_crypto_price symbol resp w = .error ⟨symbol, c⟩)
    ∧ (resp = .ok none →
        fetch_and_analyze_crypto_price symbol resp w =
          .error ⟨symbol, "No data returned from API."⟩)
    ∧ (∀ ks, resp = .ok (some ks) →
        fetch_and_analyze_crypto_price symbol resp w = .ok (mkDf ks w)) := by
  rcases resp with c | o
  · simp [fetch_and_analyze_crypto_price]
  · rcases o with _ | ks <;> simp [fetch_and_analyze_crypto_price]

/-! ### Dictionary (association list) lemmas -/

lemma keys_dictInsert {α : Type} (m : List (String × α)) (k : String) (v : α) :
    keys (dictInsert m k v) = if k ∈ keys m then keys m else keys m ++ [k] := by
  unfold dictInsert
  by_cases h : k ∈ keys m
  · rw [if_pos h, if_pos h]
    unfold keys
    rw [List.map_map]
    apply List.map_congr_left
    intro p hp
    simp only [Function.comp_apply]
    by_cases hpk : p.1 = k
    · rw [if_pos hpk]; exact hpk.symm
    · rw [if_neg hpk]
  · rw [if_neg h, if_neg h]
    simp [keys]

lemma mem_keys_dictInsert {α : Type} (m : List (String × α)) (k : String) (v : α)
    (s : String) : s ∈ keys (dictInsert m k v) ↔ s ∈ keys m ∨ s = k := by
  rw [keys_dictInsert]
  by_cases h : k ∈ keys m
  · rw [if_pos h]
    refine ⟨Or.inl, ?_⟩
    rintro (hs | rfl)
    · exact hs
    · exact h
  · rw [if_neg h]
    simp

lemma dlookup_cons {α : Type} (pk : String) (pv : α) (rest : List (String × α))
    (k : String) :
    dlookup ((pk, pv) :: rest) k = if pk = k then some pv else dlookup rest k := rfl

lemma dlookup_map_overwrite {α : Type} (m : List (String × α)) (k : String) (v : α)
    (h : k ∈ keys m) :
    dlookup (m.map fun p => if p.1 = k then (k, v) else p) k = some v := by
  induction m with
  | nil => simp [keys] at h
  | cons p m ih =>
    obtain ⟨pk, pv⟩ := p
    rw [List.map_cons]
    by_cases hpk : pk = k
    · have hhead : (if (pk, pv).1 = k then (k, v) else (pk, pv)) = (k, v) := if_pos hpk
      rw [hhead, dlookup_cons, if_pos rfl]
    · have hhead : (if (pk, pv).1 = k then (k, v) else (pk, pv)) = (pk, pv) := if_neg hpk
      rw [hhead, dlookup_cons, if_neg hpk]
      apply ih
      simp only [keys, List.map_cons, List.mem_cons] at h
      rcases h with h1 | h2
      · exact absurd h1.symm hpk
      · exact h2

lemma dlookup_append_single {α : Type} (m : List (String × α)) (k : String) (v : α)
    (h : k ∉ keys m) : dlookup (m ++ [(k, v)]) k = some v := by
  induction m with
  | nil => simp [dlookup]
  | cons p m ih =>
    obtain ⟨pk, pv⟩ := p
    have hpk : ¬ (pk = k) := by
      intro heq
      exact h (by simp [keys, heq])
    have h' : k ∉ keys m := fun hk => h (by simp only [keys, List.map_cons, List.mem_cons]; exact Or.inr (by simpa [keys] using hk))
    rw [List.cons_append, dlookup_cons, if_neg hpk]
    exact ih h'

lemma dlookup_dictInsert_self {α : Type} (m : List (String × α)) (k : String) (v : α) :
    dlookup (dictInsert m k v) k = some v := by
  unfold dictInsert
  by_cases h : k ∈ keys m
  · rw [if_pos h]; exact dlookup_map_overwrite m k v h
  · rw [if_neg h]; exact dlookup_append_single m k v h

lemma dlookup_map_overwrite_ne {α : Type} (m : List (String × α)) (k : String) (v : α)
    (s : String) (hne : s ≠ k) :
    dlookup (m.map fun p => if p.1 = k then (k, v) else p) s = dlookup m s := by
  induction m with
  | nil => rfl
  | cons p m ih =>
    obtain ⟨pk, pv⟩ := p
    rw [List.map_cons]
    by_cases hpk : pk = k
    · have hks : ¬ (k = s) := fun heq => hne heq.symm
      have hpks : ¬ (pk = s) := by rw [hpk]; exact hks
      have hhead : (if (pk, pv).1 = k then (k, v) else (pk, pv)) = (k, v) := if_pos hpk
      rw [hhead, dlookup_cons, if_neg hks, dlookup_cons, if_neg hpks]
      exact ih
    · have hhead : (if (pk, pv).1 = k then (k, v) else (pk, pv)) = (pk, pv) := if_neg hpk
      rw [hhead, dlookup_cons, dlookup_cons]
      by_cases hpks : pk = s
      · rw [if_pos hpks, if_pos hpks]
      · rw [if_neg hpks, if_neg hpks]
        exact ih

lemma dlookup_append_single_ne {α : Type} (m : List (String × α)) (k : String) (v : α)
    (s : String) (hne : s ≠ k) : dlookup (m ++ [(k, v)]) s = dlookup m s := by
  induction m with
  | nil =>
    have hks : ¬ (k = s) := fun heq => hne heq.symm
    rw [List.nil_append, dlookup_cons, if_neg hks]
  | cons p m ih =>
    obtain ⟨pk, pv⟩ := p
    rw [List.cons_append, dlookup_cons, dlookup_cons]
    by_cases hpks : pk = s
    · rw [if_pos hpks, if_pos hpks]
    · rw [if_neg hpks, if_neg hpks]
      exact ih

lemma dlookup_dictInsert_ne {α : Type} (m : List (String × α)) (k : String) (v : α)
    (s : String) (hne : s ≠ k) : dlookup (dictInsert m k v) s = dlookup m s := by
  unfold dictInsert
  by_cases h : k ∈ keys m
  · rw [if_pos h]; exact dlookup_map_overwrite_ne m k v s hne
  · rw [if_neg h]; exact dlookup_append_single_ne m k v s hne

/-! ### The aggregation loop (C2, C4, C10) -/

lemma processOne_error (fetch : String → Except FetchErr Df) (agg : Agg) (sym : String)
    (e : FetchErr) (hf : fetch sym = .error e) :
    processOne fetch agg sym = { agg with errors := agg.errors ++ [(sym, e.cause)] } := by
  unfold processOne; rw [hf]

lemma processOne_empty (fetch : String → Except FetchErr Df) (agg : Agg) (sym : String)
    (df : Df) (hf : fetch sym = .ok df) (hl : df.volCol.getLast? = none) :
    processOne fetch agg sym =
      { agg with errors := agg.errors ++ [(sym, "single positional indexer is out-of-bounds")] } := by
  unfold processOne; simp only [hf, hl]

lemma processOne_nan (fetch : String → Except FetchErr Df) (agg : Agg) (sym : String)
    (df : Df) (hf : fetch sym = .ok df) (hl : df.volCol.getLast? = some none) :
    processOne fetch agg sym = agg := by
  unfold processOne; simp only [hf, hl]

lemma processOne_ok (fetch : String → Except FetchErr Df) (agg : Agg) (sym : String)
    (df : Df) (v : ℚ) (hf : fetch sym = .ok df) (hl : df.volCol.getLast? = some (some v)) :
    processOne fetch agg sym =
      { agg with
          result := dictInsert agg.result sym v
          dfs := dictInsert agg.dfs sym df } := by
  unfold processOne; simp only [hf, hl]

lemma mem_keys_result_foldl (fetch : String → Except FetchErr Df) (symbols : List String)
    (s : String) :
    ∀ agg : Agg, (s ∈ keys (symbols.foldl (processOne fetch) agg).result ↔
      s ∈ keys agg.result ∨ (s ∈ symbols ∧ succeeds fetch s = true)) := by
  induction symbols with
  | nil => intro agg; simp
  | cons sym rest ih =>
    intro agg
    rw [List.foldl_cons, ih]
    have hstep : s ∈ keys (processOne fetch agg sym).result ↔
        s ∈ keys agg.result ∨ (s = sym ∧ succeeds fetch sym = true) := by
      cases hf : fetch sym with
      | error e =>
        rw [processOne_error fetch agg sym e hf]
        have hsucc : succeeds fetch sym = false := by simp only [succeeds, hf]
        simp [hsucc]
      | ok df =>
        cases hl : df.volCol.getLast? with
        | none =>
          rw [processOne_empty fetch agg sym df hf hl]
          have hsucc : succeeds fetch sym = false := by simp only [succeeds, hf, hl]
          simp [hsucc]
        | some val =>
          cases val with
          | none =>
            rw [processOne_nan fetch agg sym df hf hl]
            have hsucc : succeeds fetch sym = false := by simp only [succeeds, hf, hl]
            simp [hsucc]
          | some v =>
            rw [processOne_ok fetch agg sym df v hf hl]
            have hsucc : succeeds fetch sym = true := by simp only [succeeds, hf, hl]
            simp [mem_keys_dictInsert, hsucc]
    have hsub : (s = sym ∧ succeeds fetch s = true) ↔
        (s = sym ∧ succeeds fetch sym = true) := by
      constructor <;> rintro ⟨rfl, h⟩ <;> exact ⟨rfl, h⟩
    rw [hstep, List.mem_cons, or_and_right, hsub]
    exact or_assoc

lemma mem_keys_dfs_foldl (fetch : String → Except FetchErr Df) (symbols : List String)
    (s : String) :
    ∀ agg : Agg, (s ∈ keys (symbols.foldl (processOne fetch) agg).dfs ↔
      s ∈ keys agg.dfs ∨ (s ∈ symbols ∧ succeeds fetch s = true)) := by
  induction symbols with
  | nil => intro agg; simp
  | cons sym rest ih =>
    intro agg
    rw [List.foldl_cons, ih]
    have hstep : s ∈ keys (processOne fetch agg sym).dfs ↔
        s ∈ keys agg.dfs ∨ (s = sym ∧ succeeds fetch sym = true) := by
      cases hf : fetch sym with
      | error e =>
        rw [processOne_error fetch agg sym e hf]
        have hsucc : succeeds fetch sym = false := by simp only [succeeds, hf]
        simp [hsucc]
      | ok df =>
        cases hl : df.volCol.getLast? with
        | none =>
          rw [processOne_empty fetch agg sym df hf hl]
          have hsucc : succeeds fetch sym = false := by simp only [succeeds, hf, hl]
          simp [hsucc]
        | some val =>
          cases val with
          | none =>
            rw [processOne_nan fetch agg sym df hf hl]
            have hsucc : succeeds fetch sym = false := by simp only [succeeds, hf, hl]
            simp [hsucc]
          | some v =>
            rw [processOne_ok fetch agg sym df v hf hl]
            have hsucc : succeeds fetch sym = true := by simp only [succeeds, hf, hl]
            simp [mem_keys_dictInsert, hsucc]
    have hsub : (s = sym ∧ succeeds fetch s = true) ↔
        (s = sym ∧ succeeds fetch sym = true) := by
      constructor <;> rintro ⟨rfl, h⟩ <;> exact ⟨rfl, h⟩
    rw [hstep, List.mem_cons, or_and_right, hsub]
    exact or_assoc

lemma errors_foldl_mono (fetch : String → Except FetchErr Df) (symbols : List String)
    (p : String × String) :
    ∀ agg : Agg, p ∈ agg.errors → p ∈ (symbols.foldl (processOne fetch) agg).errors := by
  induction symbols with
  | nil => intro agg hp; exact hp
  | cons sym rest ih =>
    intro agg hp
    rw [List.foldl_cons]
    apply ih
    cases hf : fetch sym with
    | error e =>
      rw [processOne_error fetch agg sym e hf]
      exact List.mem_append_left _ hp
    | ok df =>
      cases hl : df.volCol.getLast? with
      | none =>
        rw [processOne_empty fetch agg sym df hf hl]
        exact List.mem_append_left _ hp
      | some val =>
        cases val with
        | none => rw [processOne_nan fetch agg sym df hf hl]; exact hp
        | some v => rw [processOne_ok fetch agg sym df v hf hl]; exact hp

lemma error_recorded_foldl (fetch : String → Except FetchErr Df) (symbols : List String)
    (b : String) (e : FetchErr) (hf : fetch b = .error e) :
    ∀ agg : Agg, b ∈ symbols →
      (b, e.cause) ∈ (symbols.foldl (processOne fetch) agg).errors := by
  induction symbols with
  | nil => intro agg hb; cases hb
  | cons sym rest ih =>
    intro agg hb
    rw [List.foldl_cons]
    rcases List.mem_cons.mp hb with heq | hmem
    · subst heq
      apply errors_foldl_mono
      rw [processOne_error fetch agg b e hf]
      simp
    · exact ih _ hmem

lemma error_not_recorded_foldl (fetch : String → Except FetchErr Df) (symbols : List String)
    (s : String) (hrec : recordsError fetch s = false) :
    ∀ agg : Agg, (∀ m, (s, m) ∉ agg.errors) →
      ∀ m, (s, m) ∉ (symbols.foldl (processOne fetch) agg).errors := by
  induction symbols with
  | nil => intro agg hagg m; exact hagg m
  | cons sym rest ih =>
    intro agg hagg m
    rw [List.foldl_cons]
    refine ih (processOne fetch agg sym) ?_ m
    intro m' hmem
    cases hf : fetch sym with
    | error e =>
      rw [processOne_error fetch agg sym e hf] at hmem
      rcases List.mem_append.mp hmem with h1 | h2
      · exact hagg m' h1
      · simp only [List.mem_singleton, Prod.mk.injEq] at h2
        obtain ⟨rfl, -⟩ := h2
        simp only [recordsError, hf] at hrec
        exact Bool.noConfusion hrec
    | ok df =>
      cases hl : df.volCol.getLast? with
      | none =>
        rw [processOne_empty fetch agg sym df hf hl] at hmem
        rcases List.mem_append.mp hmem with h1 | h2
        · exact hagg m' h1
        · simp only [List.mem_singleton, Prod.mk.injEq] at h2
          obtain ⟨rfl, -⟩ := h2
          simp only [recordsError, hf, hl] at hrec
          simp at hrec
      | some val =>
        cases val with
        | none =>
          rw [processOne_nan fetch agg sym df hf hl] at hmem
          exact hagg m' hmem
        | some v =>
          rw [processOne_ok fetch agg sym df v hf hl] at hmem
          exact hagg m' hmem

lemma processOne_result_lookup_ne (g : String → Except FetchErr Df) (a : Agg)
    (sym s : String) (hs : s ≠ sym) :
    dlookup (processOne g a sym).result s = dlookup a.result s := by
  cases hgf : g sym with
  | error e => rw [processOne_error g a sym e hgf]
  | ok df =>
    cases hl : df.volCol.getLast? with
    | none => rw [processOne_empty g a sym df hgf hl]
    | some val =>
      cases val with
      | none => rw [processOne_nan g a sym df hgf hl]
      | some v =>
        rw [processOne_ok g a sym df v hgf hl]
        exact dlookup_dictInsert_ne _ _ _ _ hs

lemma processOne_dfs_lookup_ne (g : String → Except FetchErr Df) (a : Agg)
    (sym s : String) (hs : s ≠ sym) :
    dlookup (processOne g a sym).dfs s = dlookup a.dfs s := by
  cases hgf : g sym with
  | error e => rw [processOne_error g a sym e hgf]
  | ok df =>
    cases hl : df.volCol.getLast? with
    | none => rw [processOne_empty g a sym df hgf hl]
    | some val =>
      cases val with
      | none => rw [processOne_nan g a sym df hgf hl]
      | some v =>
        rw [processOne_ok g a sym df v hgf hl]
        exact dlookup_dictInsert_ne _ _ _ _ hs

lemma processOne_errors_mem_ne (g : String → Except FetchErr Df) (a : Agg)
    (sym s : String) (m : String) (hs : s ≠ sym) :
    ((s, m) ∈ (processOne g a sym).errors ↔ (s, m) ∈ a.errors) := by
  cases hgf : g sym with
  | error e => rw [processOne_error g a sym e hgf]; simp [hs]
  | ok df =>
    cases hl : df.volCol.getLast? with
    | none => rw [processOne_empty g a sym df hgf hl]; simp [hs]
    | some val =>
      cases val with
      | none => rw [processOne_nan g a sym df hgf hl]
      | some v => rw [processOne_ok g a sym df v hgf hl]

/-- Two aggregator states that can differ only at the entries of the single
symbol `b`. -/
def AgreesExcept (b : String) (a a' : Agg) : Prop :=
  (∀ s, s ≠ b → dlookup a.result s = dlookup a'.result s)
  ∧ (∀ s, s ≠ b → dlookup a.dfs s = dlookup a'.dfs s)
  ∧ (∀ s m, s ≠ b → ((s, m) ∈ a.errors ↔ (s, m) ∈ a'.errors))

lemma processOne_agreesExcept (fetch fetch' : String → Except FetchErr Df) (b : String)
    (hagree : ∀ s, s ≠ b → fetch' s = fetch s) (sym : String) (a a' : Agg)
    (h : AgreesExcept b a a') :
    AgreesExcept b (processOne fetch a sym) (processOne fetch' a' sym) := by
  by_cases hsym : sym = b
  · subst hsym
    refine ⟨fun s hs => ?_, fun s hs => ?_, fun s m hs => ?_⟩
    · rw [processOne_result_lookup_ne fetch a sym s hs,
        processOne_result_lookup_ne fetch' a' sym s hs]
      exact h.1 s hs
    · rw [processOne_dfs_lookup_ne fetch a sym s hs,
        processOne_dfs_lookup_ne fetch' a' sym s hs]
      exact h.2.1 s hs
    · rw [processOne_errors_mem_ne fetch a sym s m hs,
        processOne_errors_mem_ne fetch' a' sym s m hs]
      exact h.2.2 s m hs
  · have hff : fetch' sym = fetch sym := hagree sym hsym
    cases hf : fetch sym with
    | error e =>
      rw [processOne_error fetch a sym e hf,
        processOne_error fetch' a' sym e (by rw [hff]; exact hf)]
      refine ⟨h.1, h.2.1, fun s m hs => ?_⟩
      simp only [List.mem_append]
      exact or_congr (h.2.2 s m hs) Iff.rfl
    | ok df =>
      have hf' : fetch' sym = .ok df := by rw [hff]; exact hf
      cases hl : df.volCol.getLast? with
      | none =>
        rw [processOne_empty fetch a sym df hf hl,
          processOne_empty fetch' a' sym df hf' hl]
        refine ⟨h.1, h.2.1, fun s m hs => ?_⟩
        simp only [List.mem_append]
        exact or_congr (h.2.2 s m hs) Iff.rfl
      | some val =>
        cases val with
        | none =>
          rw [processOne_nan fetch a sym df hf hl,
            processOne_nan fetch' a' sym df hf' hl]
          exact h
        | some v =>
          rw [processOne_ok fetch a sym df v hf hl,
            processOne_ok fetch' a' sym df v hf' hl]
          refine ⟨fun s hs => ?_, fun s hs => ?_, fun s m hs => h.2.2 s m hs⟩
          · by_cases hssym : s = sym
            · subst hssym
              rw [dlookup_dictInsert_self, dlookup_dictInsert_self]
            · rw [dlookup_dictInsert_ne _ _ _ _ hssym,
                dlookup_dictInsert_ne _ _ _ _ hssym]
              exact h.1 s hs
          · by_cases hssym : s = sym
            · subst hssym
              rw [dlookup_dictInsert_self, dlookup_dictInsert_self]
            · rw [dlookup_dictInsert_ne _ _ _ _ hssym,
                dlookup_dictInsert_ne _ _ _ _ hssym]
              exact h.2.1 s hs

lemma foldl_agreesExcept (fetch fetch' : String → Except FetchErr Df) (b : String)
    (hagree : ∀ s, s ≠ b → fetch' s = fetch s) (symbols : List String) :
    ∀ a a' : Agg, AgreesExcept b a a' →
      AgreesExcept b (symbols.foldl (processOne fetch) a)
        (symbols.foldl (processOne fetch') a') := by
  induction symbols with
  | nil => intro a a' h; exact h
  | cons sym rest ih =>
    intro a a' h
    rw [List.foldl_cons, List.foldl_cons]
    exact ih _ _ (processOne_agreesExcept fetch fetch' b hagree sym a a' h)

lemma keys_result_eq_keys_dfs_foldl (fetch : String → Except FetchErr Df)
    (symbols : List String) :
    ∀ agg : Agg, keys agg.result = keys agg.dfs →
      keys (symbols.foldl (processOne fetch) agg).result =
        keys (symbols.foldl (processOne fetch) agg).dfs := by
  induction symbols with
  | nil => intro agg h; exact h
  | cons sym rest ih =>
    intro agg h
    rw [List.foldl_cons]
    apply ih
    cases hf : fetch sym with
    | error e => rw [processOne_error fetch agg sym e hf]; exact h
    | ok df =>
      cases hl : df.volCol.getLast? with
      | none => rw [processOne_empty fetch agg sym df hf hl]; exact h
      | some val =>
        cases val with
        | none => rw [processOne_nan fetch agg sym df hf hl]; exact h
        | some v =>
          rw [processOne_ok fetch agg sym df v hf hl]
          show keys (dictInsert agg.result sym v) = keys (dictInsert agg.dfs sym df)
          rw [keys_dictInsert, keys_dictInsert, h]

/-- C2: a `FetchError` raised while processing one symbol never aborts the
batch or affects the other symbols: the aggregation (which is a total
function — every per-symbol exception is caught inside the loop) returns
ranking entries exactly for the symbols whose per-symbol pass succeeds
with a usable value, records the failing symbol's error for reporting,
and gives every other symbol the same entries it would have had under any
fetch behaviour for the failing symbol. -/
theorem C2_failure_isolation (symbols : List String)
    (fetch fetch' : String → Except FetchErr Df) (b : String) (e : FetchErr)
    (hb : b ∈ symbols) (hfb : fetch b = .error e)
    (hagree : ∀ s, s ≠ b → fetch' s = fetch s) :
    (∀ s, s ∈ keys (fetch_data_and_plot symbols fetch).result ↔
      (s ∈ symbols ∧ succeeds fetch s = true))
    ∧ b ∉ keys (fetch_data_and_plot symbols fetch).result
    ∧ (b, e.cause) ∈ (fetch_data_and_plot symbols fetch).errors
    ∧ (∀ s, s ≠ b →
        dlookup (fetch_data_and_plot symbols fetch).result s =
          dlookup (fetch_data_and_plot symbols fetch').result s
        ∧ dlookup (fetch_data_and_plot symbols fetch).dfs s =
          dlookup (fetch_data_and_plot symbols fetch').dfs s) := by
  have hmem : ∀ s, s ∈ keys (fetch_data_and_plot symbols fetch).result ↔
      (s ∈ symbols ∧ succeeds fetch s = true) := by
    intro s
    unfold fetch_data_and_plot
    rw [mem_keys_result_foldl]
    simp [keys]
  refine ⟨hmem, ?_, ?_, ?_⟩
  · rw [hmem b]
    rintro ⟨-, hsucc⟩
    unfold succeeds at hsucc
    rw [hfb] at hsucc
    exact Bool.noConfusion hsucc
  · exact error_recorded_foldl fetch symbols b e hfb _ hb
  · intro s hs
    have hiso := foldl_agreesExcept fetch fetch' b hagree symbols ⟨[], [], []⟩ ⟨[], [], []⟩
      ⟨fun _ _ => rfl, fun _ _ => rfl, fun _ _ _ => Iff.rfl⟩
    exact ⟨hiso.1 s hs, hiso.2.1 s hs⟩

/-- C4: a symbol whose fetch succeeds appears in the ranking map exactly
when the last entry of its volatility column is defined; when that last
entry is missing the symbol is excluded entirely — no ranking entry, no
retained frame, and no recorded error (a filtered outcome, not a
failure). -/
theorem C4_last_value_filter (symbols : List String)
    (fetch : String → Except FetchErr Df) (s : String) (df : Df) (last : Option ℚ)
    (hs : s ∈ symbols) (hf : fetch s = .ok df)
    (hlast : df.volCol.getLast? = some last) :
    (s ∈ keys (fetch_data_and_plot symbols fetch).result ↔ last.isSome = true)
    ∧ (last = none →
        s ∉ keys (fetch_data_and_plot symbols fetch).result
        ∧ s ∉ keys (fetch_data_and_plot symbols fetch).dfs
        ∧ ∀ m, (s, m) ∉ (fetch_data_and_plot symbols fetch).errors) := by
  have hsucc : succeeds fetch s = last.isSome := by
    simp only [succeeds, hf, hlast]
    cases last <;> rfl
  have hmem : s ∈ keys (fetch_data_and_plot symbols fetch).result ↔
      (s ∈ symbols ∧ succeeds fetch s = true) := by
    unfold fetch_data_and_plot
    rw [mem_keys_result_foldl]
    simp [keys]
  have hmemd : s ∈ keys (fetch_data_and_plot symbols fetch).dfs ↔
      (s ∈ symbols ∧ succeeds fetch s = true) := by
    unfold fetch_data_and_plot
    rw [mem_keys_dfs_foldl]
    simp [keys]
  constructor
  · rw [hmem, hsucc]
    exact ⟨fun h => h.2, fun h => ⟨hs, h⟩⟩
  · rintro rfl
    have hfalse : succeeds fetch s = false := by rw [hsucc]; rfl
    refine ⟨?_, ?_, ?_⟩
    · rw [hmem]
      rintro ⟨-, h⟩
      rw [hfalse] at h
      exact Bool.noConfusion h
    · rw [hmemd]
      rintro ⟨-, h⟩
      rw [hfalse] at h
      exact Bool.noConfusion h
    · have hrec : recordsError fetch s = false := by
        simp only [recordsError, hf, hlast]
        rfl
      exact error_not_recorded_foldl fetch symbols s hrec ⟨[], [], []⟩
        (fun m h => by cases h)

/-- C10: after aggregation, the ranking map and the retained-series map
hold exactly the same symbols: both dicts are extended in lockstep under
the same condition. -/
theorem C10_result_dfs_same_keys (symbols : List String)
    (fetch : String → Except FetchErr Df) :
    keys (fetch_data_and_plot symbols fetch).result =
      keys (fetch_data_and_plot symbols fetch).dfs :=
  keys_result_eq_keys_dfs_foldl fetch symbols ⟨[], [], []⟩ rfl

/-- Witness for C2: batch `[A, B, C]` where only B's fetch raises — B's
failure is recorded in the aggregator's error list. -/
theorem C2_failure_isolation_witness :
    ("B", "boom") ∈ (fetch_data_and_plot ["A", "B", "C"]
      (fun s => if s = "B" then Except.error ⟨"B", "boom"⟩
                else Except.ok ⟨[], [], [none, some ((1 : ℚ)/2)]⟩)).errors :=
  (C2_failure_isolation ["A", "B", "C"]
    (fun s => if s = "B" then Except.error ⟨"B", "boom"⟩
              else Except.ok ⟨[], [], [none, some ((1 : ℚ)/2)]⟩)
    (fun _ => Except.ok ⟨[], [], [none, some ((1 : ℚ)/2)]⟩)
    "B" ⟨"B", "boom"⟩ (by simp) (by simp) (fun s hs => by simp [hs])).2.2.1

/-- Witness for C4 at a concrete batch whose single symbol has a defined
last volatility value. -/
theorem C4_last_value_filter_witness :
    ("A" ∈ keys (fetch_data_and_plot ["A"]
        (fun _ => Except.ok ⟨[], [], [none, some ((1 : ℚ)/2)]⟩)).result
      ↔ (some ((1 : ℚ)/2)).isSome = true) :=
  (C4_last_value_filter ["A"] (fun _ => Except.ok ⟨[], [], [none, some ((1 : ℚ)/2)]⟩)
    "A" ⟨[], [], [none, some ((1 : ℚ)/2)]⟩ (some ((1 : ℚ)/2))
    (by simp) rfl rfl).1

/-! ### The ranking sort (C5) -/

/-- Counterexample to C6: a single-entry batch has `max = min`, and its
normalized position is the missing value (float 0/0, NaN), not the
claimed midpoint 0.5. -/
theorem C6_counterexample :
    (plot_data [("A", (1 : ℚ)/100)]).map (fun r => r.2.2) ≠ [some ((1 : ℚ)/2)] := by
  norm_num [plot_data, rankRows, sortAsc, insertAsc, colMax, colMin, floatDiv]
  simp

/-- C6 amended: when `max = min` (all values equal, including a
single-entry batch) every entry's normalized position is NaN — the float
division 0/0, embedded as a missing value — and no exception is raised;
when `max ≠ min` the position is `(v - min) / (max - min)`. -/
theorem C6_amended_nan_color (data : List (String × ℚ)) (mx mn : ℚ)
    (hmx : colMax ((rankRows data).map Prod.snd) = some mx)
    (hmn : colMin ((rankRows data).map Prod.snd) = some mn) :
    (mx = mn → ∀ r ∈ plot_data data, r.2.2 = none)
    ∧ (mx ≠ mn → ∀ r ∈ plot_data data, r.2.2 = some ((r.2.1 - mn) / (mx - mn))) := by
  unfold plot_data
  simp only [hmx, hmn]
  constructor
  · intro heq r hr
    subst heq
    simp only [List.mem_map] at hr
    obtain ⟨a, -, rfl⟩ := hr
    simp [floatDiv, sub_self]
  · intro hne r hr
    simp only [List.mem_map] at hr
    obtain ⟨a, -, rfl⟩ := hr
    simp only [floatDiv]
    rw [if_neg (sub_ne_zero.mpr hne)]

/-- Witness for C6 at a single-entry batch, where `max = min`: the one
produced row carries the missing color. -/
theorem C6_amended_nan_color_witness :
    (("A", (1 : ℚ)/100, (none : Option ℚ)) : String × ℚ × Option ℚ).2.2 = none :=
  (C6_amended_nan_color [("A", (1 : ℚ)/100)] ((1 : ℚ)/100) ((1 : ℚ)/100) rfl rfl).1 rfl
    ("A", (1 : ℚ)/100, none)
    (by simp [plot_data, rankRows, sortAsc, insertAsc, colMax, colMin, floatDiv])

end BybitVol
